import Mathlib

/-!
Verification of the timeline-synchronization engine of a shorts-video
generator (`src/video_generator.py`).  The Python code is shallowly
embedded: strings become `List Char`, Python floats become `ℚ`
(the code only adds, multiplies and compares decimal constants),
dict-shaped timing segments become the structure `Seg`, and external
effects (speech-to-text words, image loading success, encoder progress
ticks) become explicit inputs.
-/

namespace VidGen

/-- Whitespace recognised by Python's `str.split()` / `str.strip()`
(the characters that actually occur in scripts). -/
def pyIsSpace (c : Char) : Bool :=
  c = ' ' || c = '\t' || c = '\n' || c = '\r'

/-- The punctuation class `[.!?,;:]` of `split_into_phrases`. -/
def isPunct (c : Char) : Bool :=
  c = '.' || c = '!' || c = '?' || c = ',' || c = ';' || c = ':'

/-- Accumulator pass of Python `str.split()` (split on whitespace runs,
no empty fragments); `cur` carries the current word reversed. -/
def splitWSGo (cur : List Char) : List Char → List (List Char)
  | [] => if cur.isEmpty then [] else [cur.reverse]
  | c :: rest =>
      if pyIsSpace c then
        if cur.isEmpty then splitWSGo [] rest
        else cur.reverse :: splitWSGo [] rest
      else splitWSGo (c :: cur) rest

/-- Python `s.split()` with no arguments. -/
def pySplitWS (cs : List Char) : List (List Char) := splitWSGo [] cs

/-- Python `' '.join(words)`. -/
def joinSp : List (List Char) → List Char
  | [] => []
  | [w] => w
  | w :: ws => w ++ ' ' :: joinSp ws

/-- Python `' '.join(s.split())`: collapse internal whitespace. -/
def normWS (cs : List Char) : List Char := joinSp (pySplitWS cs)

/-- Python `s.lstrip()` (for the whitespace characters modelled). -/
def stripL (cs : List Char) : List Char := cs.dropWhile pyIsSpace

/-- Python `s.rstrip()`. -/
def stripR (cs : List Char) : List Char :=
  (cs.reverse.dropWhile pyIsSpace).reverse

/-- Python `s.strip()`. -/
def strip (cs : List Char) : List Char := stripR (stripL cs)

/-- `re.split(r'([.!?,;:])', text)`: text fragments (possibly empty)
alternating with single kept punctuation marks; `cur` is the current
fragment reversed. -/
def splitKeepGo (cur : List Char) : List Char → List (List Char)
  | [] => [cur.reverse]
  | c :: rest =>
      if isPunct c then cur.reverse :: [c] :: splitKeepGo [] rest
      else splitKeepGo (c :: cur) rest

/-- `re.split(r'([.!?,;:])', text)`. -/
def splitKeep (cs : List Char) : List (List Char) := splitKeepGo [] cs

/-- `re.match(r'([.!?,;:])', item)`: the item starts with one of the
punctuation marks. -/
def isPunctHead : List Char → Bool
  | [] => false
  | c :: _ => isPunct c

/-- The phrase-assembly loop of `split_into_phrases` (lines 142-159):
skips whitespace-only fragments, appends a punctuation fragment to the
current phrase and closes it, and otherwise flushes any open phrase and
starts a new one from the text fragment. -/
def phraseLoopGo (cur : List Char) : List (List Char) → List (List Char)
  | [] => if cur.isEmpty then [] else [strip cur]
  | item :: rest =>
      if (strip item).isEmpty then phraseLoopGo cur rest
      else if isPunctHead item then
        strip (cur ++ item) :: phraseLoopGo [] rest
      else
        if cur.isEmpty then phraseLoopGo item rest
        else strip cur :: phraseLoopGo item rest

/-- `VideoGenerator.split_into_phrases` (lines 127-164): split on the
punctuation pattern keeping the marks, assemble phrases, then
`[' '.join(phrase.split()) for phrase in phrases if phrase.strip()]`. -/
def splitIntoPhrases (cs : List Char) : List (List Char) :=
  ((phraseLoopGo [] (splitKeep cs)).filter (fun p => !(strip p).isEmpty)).map normWS

/-- The non-whitespace character sequence of a string: what must be
preserved by phrase segmentation. -/
def nonSpace (cs : List Char) : List Char := cs.filter (fun c => !pyIsSpace c)

/-- Punctuation marks occur only as the last character of the phrase:
every earlier character is not in the `[.!?,;:]` class. -/
def phrasePunctOk (cs : List Char) : Bool :=
  cs.dropLast.all (fun c => !isPunct c)

/-- One timing segment: the dicts `{'word', 'start', 'end', 'duration'}`
produced by the timing resolvers. -/
structure Seg where
  word : List Char
  s : ℚ
  e : ℚ
  dur : ℚ
  deriving Repr, DecidableEq

/-- Did the (stripped) phrase end with `.`, `!` or `?`
(Python `phrase.endswith(('.', '!', '?'))`). -/
def endsSentence (cs : List Char) : Bool :=
  match cs.getLast? with
  | some c => c = '.' || c = '!' || c = '?'
  | none => false

/-- Did the (stripped) phrase end with `,`, `;` or `:`. -/
def endsClause (cs : List Char) : Bool :=
  match cs.getLast? with
  | some c => c = ',' || c = ';' || c = ':'
  | none => false

/-- The sequential layout loop shared by `get_precise_word_timings` and
`_get_fallback_timings`: each phrase is placed at the running time with
its computed duration, and the running time advances by duration plus
the inter-phrase gap. -/
def layoutGo (gap : ℚ) (durOf : List Char → ℚ) (t : ℚ) :
    List (List Char) → List Seg
  | [] => []
  | p :: ps => ⟨p, t, t + durOf p, durOf p⟩ :: layoutGo gap durOf (t + durOf p + gap) ps

/-- The value of `current_time` after the layout loop. -/
def finalTimeGo (gap : ℚ) (durOf : List Char → ℚ) (t : ℚ) :
    List (List Char) → ℚ
  | [] => t
  | p :: ps => finalTimeGo gap durOf (t + durOf p + gap) ps

/-- Per-phrase duration of `get_precise_word_timings` (lines 939-952):
`words * word_duration` plus a 0.4s end-of-sentence or 0.3s
mid-sentence bonus, floored at `max(1.8, words * 0.3)`. -/
def heuristicDur (wordDur : ℚ) (p : List Char) : ℚ :=
  let words : ℚ := ((pySplitWS p).length : ℕ)
  let base := words * wordDur +
    (if endsSentence (strip p) then 2/5
     else if endsClause (strip p) then 3/10 else 0)
  max base (max (9/5) (words * (3/10)))

/-- Per-phrase duration of `_get_fallback_timings` (lines 997-1003):
`max(words * 0.225, 1.08)` plus a 0.18s / 0.09s punctuation bonus
(the 0.25 / 1.2 / 0.2 / 0.1 constants times the 0.9 speed factor). -/
def fallbackDur (p : List Char) : ℚ :=
  let words : ℚ := ((pySplitWS p).length : ℕ)
  let d := max (words * (9/40)) (27/25)
  d + (if endsSentence (strip p) then 9/50
       else if endsClause (strip p) then 9/100 else 0)

/-- `VideoGenerator._get_fallback_timings` (lines 980-1019): phrases laid
out from time 0 with gap `0.08 * 0.9 = 0.072`; the audio is never
consulted. -/
def getFallbackTimings (script : List Char) : List Seg :=
  let phrases := splitIntoPhrases script
  if phrases.isEmpty then []
  else layoutGo (9/125) fallbackDur 0 phrases

/-- The `except` path of `get_precise_word_timings` (lines 976-978):
when the audio cannot be analysed, `_get_fallback_timings` is invoked
with only the subtitle text, so the audio argument is ignored. -/
def timingsOnAudioFailure (audioDuration : ℚ) (script : List Char) : List Seg :=
  let _ := audioDuration
  getFallbackTimings script

/-- The heuristic per-word duration of `get_precise_word_timings`
(lines 927-933): `max(available_duration * 0.95 / total_words, 0.35)`
with `available_duration = total_duration - len(phrases) * 0.2`. -/
def heuristicWordDur (totalDuration : ℚ) (phrases : List (List Char)) : ℚ :=
  let totalWords : ℚ := (((phrases.map (fun p => (pySplitWS p).length)).sum : ℕ))
  max ((totalDuration - (phrases.length : ℚ) * (1/5)) * (19/20) / totalWords) (7/20)

/-- The proportional scale-back of lines 969-972. -/
def scaleSeg (k : ℚ) (sg : Seg) : Seg := ⟨sg.word, sg.s * k, sg.e * k, sg.dur * k⟩

/-- `VideoGenerator.get_precise_word_timings` (lines 909-974), success
path, with `total_duration` (from librosa) as input: heuristic word
duration from the available time, sequential layout starting at 0.1,
and a proportional scale-down when the running total exceeds the audio
duration (leaving a 0.2s buffer). -/
def getPreciseWordTimings (totalDuration : ℚ) (script : List Char) : List Seg :=
  let phrases := splitIntoPhrases script
  if phrases.isEmpty then getFallbackTimings script
  else
    let durOf := heuristicDur (heuristicWordDur totalDuration phrases)
    let timings := layoutGo (1/5) durOf (1/10) phrases
    let tEnd := finalTimeGo (1/5) durOf (1/10) phrases
    if totalDuration < tEnd then
      timings.map (scaleSeg ((totalDuration - 1/5) / tEnd))
    else timings

/-- `end` of the last segment (0 for an empty list): the total resolved
duration of a timing list. -/
def lastEnd (l : List Seg) : ℚ := ((l.getLast?).map (·.e)).getD 0

/-! ### Strategy A: `get_speech_to_text_segments` -/

/-- One word with timestamps as returned by the external Whisper
aligner: the triples `(word, start, end)` consumed at lines 429-441. -/
structure WordT where
  w : List Char
  ws : ℚ
  we : ℚ
  deriving Repr, DecidableEq

/-- `re.sub(r'\s+([.,!?;:])', r'\1', text)`: delete whitespace that is
immediately followed (after more whitespace) by a punctuation mark. -/
def fixPunct : List Char → List Char
  | [] => []
  | c :: rest =>
      if pyIsSpace c && isPunctHead (rest.dropWhile pyIsSpace) then fixPunct rest
      else c :: fixPunct rest

/-- The `should_segment` condition exactly as written at lines 444-449:
`word_count >= 9`, or the word ends a sentence, or (`word_count >= 7`
and the word ends with `,;:`), or `word_count >= 10`. -/
def shouldSegCode (w : List Char) (cnt : ℕ) : Bool :=
  decide (9 ≤ cnt) || endsSentence w ||
    (decide (7 ≤ cnt) && endsClause w) || decide (10 ≤ cnt)

/-- The closing condition with the redundant 10-word cap dropped
(`cnt ≥ 10` implies `cnt ≥ 9`): segment closes when the count reaches 9,
or the word ends a sentence, or the count is at least 7 and the word
ends a clause mark. -/
def shouldSegSpec (w : List Char) (cnt : ℕ) : Bool :=
  decide (9 ≤ cnt) || endsSentence w || (decide (7 ≤ cnt) && endsClause w)

/-- The closing condition exactly as claimed by the spec sentence under
test: count `≥ 9`, or count `≥ 7` and the word ends a clause boundary
(any of `[.!?,;:]`), or count reaches 10 — with no unconditional
sentence-end break. -/
def shouldSegClaim (w : List Char) (cnt : ℕ) : Bool :=
  decide (9 ≤ cnt) ||
    (decide (7 ≤ cnt) && (endsSentence w || endsClause w)) || decide (10 ≤ cnt)

/-- The text of a flushed segment (lines 452-457): join the collected
words, delete spaces before punctuation, normalise whitespace. -/
def segText (ws : List (List Char)) : List Char := normWS (fixPunct (joinSp ws))

/-- Flush of the accumulated state into a segment dict (lines 459-464). -/
def mkFlush (ws : List (List Char)) (s e : Option ℚ) : Seg :=
  ⟨segText ws, s.getD 0, e.getD 0, e.getD 0 - s.getD 0⟩

/-- The word-accumulation loop of `get_speech_to_text_segments`
(lines 420-486), with state `(words, start, end, word_count)` exactly as
in the Python dict plus counter. -/
def stSegGo (curWords : List (List Char)) (curStart curEnd : Option ℚ)
    (cnt : ℕ) : List WordT → List Seg
  | [] => if curWords.isEmpty then [] else [mkFlush curWords curStart curEnd]
  | wd :: rest =>
      let word := strip wd.w
      if word.isEmpty then stSegGo curWords curStart curEnd cnt rest
      else
        let st := curStart.getD wd.ws
        let curWords' := curWords ++ [word]
        let cnt' := cnt + 1
        if shouldSegCode word cnt' then
          mkFlush curWords' (some st) (some wd.we) :: stSegGo [] none none 0 rest
        else stSegGo curWords' (some st) (some wd.we) cnt' rest

/-- The raw greedy segmentation of Strategy A, before the readability
gap post-pass. -/
def strategyARaw (words : List WordT) : List Seg := stSegGo [] none none 0 words

/-- The words that actually enter the accumulation: stripped, with the
empty ones skipped (lines 431-433). -/
def cleanWords (words : List WordT) : List WordT :=
  (words.filter (fun wd => !(strip wd.w).isEmpty)).map
    (fun wd => ⟨strip wd.w, wd.ws, wd.we⟩)

/-- Grouping of the (clean) word stream described by the amended spec:
greedily accumulate and close the group right after a word for which
`shouldSegSpec` holds of the accumulated count. -/
def groupGoSpec (cur : List WordT) : List WordT → List (List WordT)
  | [] => if cur.isEmpty then [] else [cur]
  | wd :: rest =>
      let cur' := cur ++ [wd]
      if shouldSegSpec wd.w cur'.length then cur' :: groupGoSpec [] rest
      else groupGoSpec cur' rest

/-- Spec-described grouping of the whole clean word stream. -/
def groupWordsSpec (ws : List WordT) : List (List WordT) := groupGoSpec [] ws

/-- Grouping following the claim's closing rule verbatim
(`shouldSegClaim`). -/
def groupGoClaim (cur : List WordT) : List WordT → List (List WordT)
  | [] => if cur.isEmpty then [] else [cur]
  | wd :: rest =>
      let cur' := cur ++ [wd]
      if shouldSegClaim wd.w cur'.length then cur' :: groupGoClaim [] rest
      else groupGoClaim cur' rest

/-- Claim-described grouping of the whole clean word stream. -/
def groupWordsClaim (ws : List WordT) : List (List WordT) := groupGoClaim [] ws

/-- Segment built from one word group: text from the joined words,
start from the first word, end from the last word. -/
def mkSeg (g : List WordT) : Seg :=
  ⟨segText (g.map (·.w)), ((g.head?).map (·.ws)).getD 0,
    ((g.getLast?).map (·.we)).getD 0,
    ((g.getLast?).map (·.we)).getD 0 - ((g.head?).map (·.ws)).getD 0⟩

/-- The readability post-pass of `get_speech_to_text_segments`
(lines 489-496): at each adjacent boundary trim
`min(0.1, gap / 2)` from the earlier end and add it to the later start,
recomputing both durations. -/
def adjustReadabilityGaps : List Seg → List Seg
  | [] => []
  | [x] => [x]
  | a :: b :: rest =>
      let g := min (1/10) ((b.s - a.e) / 2)
      let a' : Seg := ⟨a.word, a.s, a.e - g, (a.e - g) - a.s⟩
      let b' : Seg := ⟨b.word, b.s + g, b.e, b.e - (b.s + g)⟩
      a' :: adjustReadabilityGaps (b' :: rest)
termination_by l => l.length
decreasing_by simp

/-- `VideoGenerator.get_speech_to_text_segments` (lines 387-503) as a
function of the aligner's word stream: greedy segmentation followed by
the readability gap adjustment. -/
def getSpeechToTextSegments (words : List WordT) : List Seg :=
  adjustReadabilityGaps (strategyARaw words)

/-! ### The Timing Smoother: `_adjust_timing_gaps` -/

/-- The gap correction between the previous (already appended) segment
and the current one (lines 1184-1197): shrink a gap above 0.3 by 40%
shared between the two sides; collapse an overlap to the midpoint. -/
def gapStep (prev sg : Seg) : Seg × Seg :=
  let gap := sg.s - prev.e
  if 3/10 < gap then
    ({ prev with e := prev.e + gap * (2/5) / 2 },
     { sg with s := sg.s - gap * (2/5) / 2 })
  else if gap < 0 then
    ({ prev with e := (sg.s + prev.e) / 2 },
     { sg with s := (sg.s + prev.e) / 2 })
  else (prev, sg)

/-- Minimum-duration enforcement and duration recomputation for the
current segment (lines 1199-1205); the previous segment's duration
field is *not* refreshed by the Python code. -/
def finishSeg (sg : Seg) : Seg :=
  let sg₂ := if sg.e - sg.s < 3/2 then { sg with e := sg.s + 3/2 } else sg
  { sg₂ with dur := sg₂.e - sg₂.s }

/-- The smoothing loop (lines 1183-1206); `acc` holds the already
processed segments reversed, because the loop mutates
`adjusted_segments[-1]` in place. -/
def smoothGo (acc : List Seg) : List Seg → List Seg
  | [] => acc.reverse
  | sg :: rest =>
      match acc with
      | [] => smoothGo [finishSeg sg] rest
      | prev :: accTail =>
          let pr := gapStep prev sg
          smoothGo (finishSeg pr.2 :: pr.1 :: accTail) rest

/-- `VideoGenerator._adjust_timing_gaps` (lines 1175-1208), the Timing
Smoother: shrink gaps above 0.3s by 40% split between the two sides,
collapse overlaps to the midpoint, enforce a 1.5s minimum duration and
recompute the (current) segment's duration. -/
def adjustTimingGaps (segments : List Seg) : List Seg :=
  if segments.isEmpty then [] else smoothGo [] segments

/-! ### Visual timeline (lines 551-573) and background clips -/

/-- Per-image durations computed in `generate_video` (lines 554-556):
`[DURATION / num_images] * num_images`. -/
def computeDurations (numImages : ℕ) (totalDuration : ℚ) : List ℚ :=
  List.replicate numImages (totalDuration / (numImages : ℚ))

/-- The duration list described by the claim under test: every segment
except the last gets `D/n` plus one transition constant, the last gets
exactly `D/n`. -/
def claimDurations (numImages : ℕ) (totalDuration : ℚ) (transition : ℚ) : List ℚ :=
  List.replicate (numImages - 1) (totalDuration / (numImages : ℚ) + transition) ++
    [totalDuration / (numImages : ℚ)]

/-- One background image path together with whether loading/processing
it succeeds (the external outcome of `Image.open` and the resize at
lines 354-361). -/
structure BgImage where
  path : String
  loads : Bool
  deriving Repr, DecidableEq

/-- A produced background clip: either a clip built from the image, or
the solid-colour fallback `ColorClip` of lines 380-381. -/
inductive Clip where
  | image (path : String) (duration : ℚ)
  | placeholder (width height : ℕ) (duration : ℚ)
  deriving Repr, DecidableEq

/-- Is the clip the solid-colour fallback? -/
def isPlaceholderClip : Clip → Bool
  | .placeholder _ _ _ => true
  | _ => false

/-- `VideoGenerator._create_background_clips` (lines 345-385): raise on
an empty path list, otherwise one clip per `zip(image_paths, durations)`
entry, degrading an image whose processing fails to a solid-colour
placeholder of the same duration. -/
def createBackgroundClips (width height : ℕ) (images : List BgImage)
    (durations : List ℚ) : Except String (List Clip) :=
  if images.isEmpty then .error "No image paths provided"
  else .ok ((images.zip durations).map (fun pd =>
    if pd.1.loads then Clip.image pd.1.path pd.2
    else Clip.placeholder width height pd.2))

/-- The background track chosen by `generate_video`. -/
inductive Background where
  | clipList (cs : List Clip)
  | solid (width height : ℕ) (duration : ℚ)
  deriving Repr, DecidableEq

/-- Lines 553-573 of `generate_video`: with images present, equal
durations and `_create_background_clips`; with no images, a single
solid-colour clip spanning the whole audio duration. -/
def buildBackground (width height : ℕ) (images : List BgImage)
    (totalDuration : ℚ) : Except String Background :=
  if 0 < images.length then
    match createBackgroundClips width height images
        (computeDurations images.length totalDuration) with
    | .error msg => .error msg
    | .ok clips =>
        if clips.isEmpty then .error "Failed to create background clips"
        else .ok (.clipList clips)
  else .ok (.solid width height totalDuration)

/-! ### Subtitle overlays: `create_text_clip` -/

/-- A composed subtitle overlay clip (the data `create_text_clip`
assigns at lines 211-217). -/
structure TextClipT where
  text : List Char
  start : ℚ
  duration : ℚ
  fade : ℚ
  deriving Repr, DecidableEq

/-- `VideoGenerator.create_text_clip` (lines 166-225), success path: no
clip when the silence flag is set or the text is empty (`not text` is
true only for the empty string), otherwise a positioned clip with fade
`min(0.3, duration * 0.15)`. -/
def createTextClip (text : List Char) (startTime duration : ℚ)
    (isSilence : Bool) : Option TextClipT :=
  if isSilence || text.isEmpty then none
  else some ⟨text, startTime, duration, min (3/10) (duration * (3/20))⟩

/-! ### Progress events -/

/-- One update received by `MyBarLogger.callback`: a parameter name and
the frame value. -/
structure LoggerUpdate where
  param : String
  value : ℕ
  deriving Repr, DecidableEq

/-- `MyBarLogger` (lines 39-52): with a callback attached, every
`frame` update with a non-zero total emits `('render', value/total*100)`;
without a callback nothing is emitted. -/
def barLoggerEmits (hasCallback : Bool) (totalFrames : ℕ)
    (updates : List LoggerUpdate) : List (String × ℚ) :=
  if hasCallback then
    updates.filterMap (fun u =>
      if u.param = "frame" && decide (totalFrames ≠ 0) then
        some ("render", (u.value : ℚ) / (totalFrames : ℚ) * 100)
      else none)
  else []

/-- All progress events of one `generate_video` run (the logger at
line 635 is the only place the progress callback is ever invoked). -/
def generateVideoEvents (hasCallback : Bool) (totalFrames : ℕ)
    (frameUpdates : List LoggerUpdate) : List (String × ℚ) :=
  barLoggerEmits hasCallback totalFrames frameUpdates

/-- The claim's ordering property, verbatim: every `render` event is
preceded by a `compose` event reaching 100, and every `export` event is
preceded by a `render` event reaching 100. -/
def phasedProgressClaim (events : List (String × ℚ)) : Prop :=
  (∀ j : Fin events.length, (events.get j).1 = "render" →
    ∃ i : Fin events.length, i.val < j.val ∧ events.get i = ("compose", 100)) ∧
  (∀ j : Fin events.length, (events.get j).1 = "export" →
    ∃ i : Fin events.length, i.val < j.val ∧ events.get i = ("render", 100))

instance (events : List (String × ℚ)) : Decidable (phasedProgressClaim events) := by
  unfold phasedProgressClaim
  exact instDecidableAnd

/-! ## Helper lemmas -/

/-- Placeholder count of the produced clip list equals the count of
images that fail to load, when the duration list is long enough. -/
lemma countP_clips_eq (w h : ℕ) :
    ∀ (imgs : List BgImage) (durs : List ℚ), imgs.length ≤ durs.length →
      ((imgs.zip durs).map (fun pd =>
          if pd.1.loads then Clip.image pd.1.path pd.2
          else Clip.placeholder w h pd.2)).countP isPlaceholderClip
        = imgs.countP (fun im => !im.loads) := by
  intro imgs
  induction imgs with
  | nil => intro durs _; simp
  | cons im rest ih =>
      intro durs hlen
      cases durs with
      | nil => simp at hlen
      | cons d ds =>
          simp only [List.zip_cons_cons, List.map_cons, List.countP_cons]
          rw [ih ds (by simpa using Nat.le_of_succ_le_succ hlen)]
          by_cases hld : im.loads <;> simp [hld, isPlaceholderClip]

/-- Evaluation of `_get_fallback_timings` on the script
`"Hello. World."`: two segments ending at 2.592s. -/
lemma eval_fallback_helloWorld :
    getFallbackTimings ("Hello. World.".toList) =
      [⟨"Hello.".toList, 0, 63/50, 63/50⟩,
       ⟨"World.".toList, 333/250, 324/125, 63/50⟩] := by
  have h : splitIntoPhrases ("Hello. World.".toList)
      = ["Hello.".toList, "World.".toList] := by decide
  have h1 : (pySplitWS ("Hello.".toList)).length = 1 := by decide
  have h2 : (pySplitWS ("World.".toList)).length = 1 := by decide
  have h3 : endsSentence (strip ("Hello.".toList)) = true := by decide
  have h4 : endsSentence (strip ("World.".toList)) = true := by decide
  rw [getFallbackTimings, h]
  simp only [layoutGo, fallbackDur, h1, h2, h3, h4, List.isEmpty, if_true,
    Nat.cast_one]
  norm_num [max_def]

/-- `finishSeg` changes nothing on a segment of duration at least 1.5s
whose duration field is consistent. -/
lemma finishSeg_id (sg : Seg) (h1 : 3/2 ≤ sg.e - sg.s)
    (h2 : sg.dur = sg.e - sg.s) : finishSeg sg = sg := by
  unfold finishSeg
  rw [if_neg (not_lt.mpr h1)]
  obtain ⟨w, s, e, d⟩ := sg
  simp only [Seg.mk.injEq, and_true, true_and]
  exact h2.symm

/-- `gapStep` changes nothing when the gap already lies in `[0, 0.3]`. -/
lemma gapStep_id (prev sg : Seg) (h1 : 0 ≤ sg.s - prev.e)
    (h2 : sg.s - prev.e ≤ 3/10) : gapStep prev sg = (prev, sg) := by
  unfold gapStep
  rw [if_neg (not_lt.mpr h2), if_neg (not_lt.mpr h1)]

/-- The smoothing loop leaves its input untouched when all adjacent
gaps already lie in `[0, 0.3]` and every segment lasts at least 1.5s
with a consistent duration field. -/
lemma smoothGo_fixed :
    ∀ (segs acc : List Seg),
      List.Chain' (fun a b => 0 ≤ b.s - a.e ∧ b.s - a.e ≤ 3/10) segs →
      (∀ sg ∈ segs, 3/2 ≤ sg.e - sg.s ∧ sg.dur = sg.e - sg.s) →
      (∀ p ∈ acc.head?, ∀ q ∈ segs.head?, 0 ≤ q.s - p.e ∧ q.s - p.e ≤ 3/10) →
      smoothGo acc segs = acc.reverse ++ segs := by
  intro segs
  induction segs with
  | nil => intro acc _ _ _; simp [smoothGo]
  | cons sg rest ih =>
      intro acc hchain hdur hconn
      obtain ⟨hc1, hc2⟩ := List.chain'_cons'.mp hchain
      have hsg := hdur sg (by simp)
      have hfin : finishSeg sg = sg := finishSeg_id sg hsg.1 hsg.2
      have hrest : ∀ x ∈ rest, 3/2 ≤ x.e - x.s ∧ x.dur = x.e - x.s :=
        fun x hx => hdur x (by simp [hx])
      have hconn' : ∀ p ∈ ([sg] : List Seg).head?, ∀ q ∈ rest.head?,
          0 ≤ q.s - p.e ∧ q.s - p.e ≤ 3/10 := by
        intro p hp q hq
        simp only [List.head?_cons, Option.mem_def, Option.some.injEq] at hp
        subst hp
        exact hc1 q hq
      cases acc with
      | nil =>
          show smoothGo [finishSeg sg] rest = _
          rw [hfin, ih [sg] hc2 hrest hconn']
          simp
      | cons prev accTail =>
          have hgap := hconn prev (by simp) sg (by simp)
          show smoothGo (finishSeg (gapStep prev sg).2 ::
            (gapStep prev sg).1 :: accTail) rest = _
          rw [gapStep_id prev sg hgap.1 hgap.2]
          show smoothGo (finishSeg sg :: prev :: accTail) rest = _
          rw [hfin, ih (sg :: prev :: accTail) hc2 hrest ?_]
          · simp
          · intro p hp q hq
            simp only [List.head?_cons, Option.mem_def, Option.some.injEq] at hp
            subst hp
            exact hc1 q hq

/-- C2, counterexample: on segments (0,2) and (3,5) the smoother is not
idempotent — the 1.0s gap is shrunk to 0.6s by the first pass, which is
still above the 0.3s threshold, so a second pass shrinks it again. -/
theorem C2_counterexample :
    adjustTimingGaps (adjustTimingGaps
        [⟨['a'], 0, 2, 2⟩, ⟨['b'], 3, 5, 2⟩])
      ≠ adjustTimingGaps [⟨['a'], 0, 2, 2⟩, ⟨['b'], 3, 5, 2⟩] := by
  have h1 : adjustTimingGaps [(⟨['a'], 0, 2, 2⟩ : Seg), ⟨['b'], 3, 5, 2⟩]
      = [⟨['a'], 0, 11/5, 2⟩, ⟨['b'], 14/5, 5, 11/5⟩] := by
    norm_num [adjustTimingGaps, smoothGo, gapStep, finishSeg, List.isEmpty]
  have h2 : adjustTimingGaps [(⟨['a'], 0, 11/5, 2⟩ : Seg), ⟨['b'], 14/5, 5, 11/5⟩]
      = [⟨['a'], 0, 58/25, 11/5⟩, ⟨['b'], 67/25, 5, 58/25⟩] := by
    norm_num [adjustTimingGaps, smoothGo, gapStep, finishSeg, List.isEmpty]
  rw [h1, h2]
  norm_num [Seg.mk.injEq]

/-- C2, amended: the Timing Smoother is a no-op — hence idempotent — on
the well-formed timing lists: those whose adjacent gaps already lie in
`[0, 0.3s]`, whose segments all last at least 1.5s and whose stored
durations equal `end - start`. (On other inputs a second run can move
segments again, since a gap above 0.3s is only shrunk to 60% of
itself.) -/
theorem C2_smoother_noop_on_smooth_input (segs : List Seg)
    (hchain : List.Chain' (fun a b => 0 ≤ b.s - a.e ∧ b.s - a.e ≤ 3/10) segs)
    (hdur : ∀ sg ∈ segs, 3/2 ≤ sg.e - sg.s ∧ sg.dur = sg.e - sg.s) :
    adjustTimingGaps segs = segs ∧
      adjustTimingGaps (adjustTimingGaps segs) = adjustTimingGaps segs := by
  have hfix : adjustTimingGaps segs = segs := by
    unfold adjustTimingGaps
    cases segs with
    | nil => simp
    | cons a l =>
        rw [if_neg (by simp)]
        simpa using smoothGo_fixed (a :: l) [] hchain hdur (by simp)
  exact ⟨hfix, by rw [hfix, hfix]⟩
/-- Witness for C2 on a concrete well-formed two-segment list with gap
0.1s and durations 2s and 1.9s. -/
theorem C2_smoother_noop_witness :
    adjustTimingGaps [(⟨['a'], 0, 2, 2⟩ : Seg), ⟨['b'], 21/10, 4, 19/10⟩]
        = [⟨['a'], 0, 2, 2⟩, ⟨['b'], 21/10, 4, 19/10⟩] ∧
      adjustTimingGaps (adjustTimingGaps
          [(⟨['a'], 0, 2, 2⟩ : Seg), ⟨['b'], 21/10, 4, 19/10⟩])
        = adjustTimingGaps [(⟨['a'], 0, 2, 2⟩ : Seg), ⟨['b'], 21/10, 4, 19/10⟩] :=
  C2_smoother_noop_on_smooth_input _
    (by constructor
        · norm_num
        · exact List.chain'_singleton _)
    (by intro sg hsg
        simp only [List.mem_cons, List.mem_singleton, List.not_mem_nil,
          or_false] at hsg
        rcases hsg with rfl | rfl <;> norm_num)

/-! ### Layout lemmas for the heuristic and fallback resolvers -/

/-- The running time of the layout loop never decreases. -/
lemma finalTimeGo_mono (gap : ℚ) (durOf : List Char → ℚ) (hg : 0 ≤ gap)
    (hd : ∀ p, 0 < durOf p) :
    ∀ (ps : List (List Char)) (t : ℚ), t ≤ finalTimeGo gap durOf t ps := by
  intro ps
  induction ps with
  | nil => intro t; simp [finalTimeGo]
  | cons p ps ih =>
      intro t
      have h1 : t ≤ t + durOf p + gap := by have := hd p; linarith
      calc t ≤ t + durOf p + gap := h1
        _ ≤ finalTimeGo gap durOf (t + durOf p + gap) ps := ih _
        _ = finalTimeGo gap durOf t (p :: ps) := by simp [finalTimeGo]

/-- Every laid-out segment starts no earlier than the initial time, is
non-degenerate, and ends by the final running time. -/
lemma layoutGo_mem (gap : ℚ) (durOf : List Char → ℚ) (hg : 0 ≤ gap)
    (hd : ∀ p, 0 < durOf p) :
    ∀ (ps : List (List Char)) (t : ℚ), ∀ sg ∈ layoutGo gap durOf t ps,
      t ≤ sg.s ∧ sg.s < sg.e ∧ sg.e ≤ finalTimeGo gap durOf t ps := by
  intro ps
  induction ps with
  | nil => intro t sg h; simp [layoutGo] at h
  | cons p ps ih =>
      intro t sg h
      simp only [layoutGo, List.mem_cons] at h
      rcases h with rfl | h
      · refine ⟨le_refl _, ?_, ?_⟩
        · show t < t + durOf p
          have := hd p; linarith
        · show t + durOf p ≤ finalTimeGo gap durOf t (p :: ps)
          calc t + durOf p ≤ t + durOf p + gap := by linarith
            _ ≤ finalTimeGo gap durOf (t + durOf p + gap) ps :=
                finalTimeGo_mono gap durOf hg hd ps _
            _ = finalTimeGo gap durOf t (p :: ps) := by simp [finalTimeGo]
      · obtain ⟨h1, h2, h3⟩ := ih _ sg h
        refine ⟨?_, h2, ?_⟩
        · have := hd p; linarith
        · calc sg.e ≤ finalTimeGo gap durOf (t + durOf p + gap) ps := h3
            _ = finalTimeGo gap durOf t (p :: ps) := by simp [finalTimeGo]

/-- Laid-out segments have strictly increasing starts. -/
lemma layoutGo_sorted (gap : ℚ) (durOf : List Char → ℚ) (hg : 0 ≤ gap)
    (hd : ∀ p, 0 < durOf p) :
    ∀ (ps : List (List Char)) (t : ℚ),
      List.Pairwise (fun a b => a.s < b.s) (layoutGo gap durOf t ps) := by
  intro ps
  induction ps with
  | nil => intro t; simp [layoutGo]
  | cons p ps ih =>
      intro t
      simp only [layoutGo, List.pairwise_cons]
      refine ⟨?_, ih _⟩
      intro b hb
      have hm := (layoutGo_mem gap durOf hg hd ps _ b hb).1
      show t < b.s
      have := hd p
      linarith

/-- The fallback per-phrase duration is strictly positive. -/
lemma fallbackDur_pos (p : List Char) : 0 < fallbackDur p := by
  have h := le_max_right (((pySplitWS p).length : ℚ) * (9/40)) (27/25)
  simp only [fallbackDur]
  split_ifs <;> linarith

/-- The heuristic per-phrase duration is at least 1.8s. -/
lemma heuristicDur_lb (wordDur : ℚ) (p : List Char) :
    9/5 ≤ heuristicDur wordDur p := by
  simp only [heuristicDur]
  exact le_trans (le_max_left _ _) (le_max_right _ _)

/-- Order and positivity for the fallback resolver. -/
lemma fallback_props (script : List Char) :
    List.Pairwise (fun a b => a.s ≤ b.s) (getFallbackTimings script) ∧
      ∀ sg ∈ getFallbackTimings script, sg.s < sg.e := by
  unfold getFallbackTimings
  by_cases h : (splitIntoPhrases script).isEmpty
  · simp [h]
  · rw [if_neg (by simpa using h)]
    have hd : ∀ p, 0 < fallbackDur p := fallbackDur_pos
    have hg : (0:ℚ) ≤ 9/125 := by norm_num
    refine ⟨(layoutGo_sorted _ _ hg hd _ _).imp le_of_lt, ?_⟩
    intro sg hsg
    exact (layoutGo_mem _ _ hg hd _ _ sg hsg).2.1

/-- Order, positivity and the audio-duration bound for the heuristic
resolver, for audio longer than the 0.2s scale-back buffer. -/
lemma heuristic_props (D : ℚ) (script : List Char) (hD : 1/5 < D) :
    List.Pairwise (fun a b => a.s ≤ b.s) (getPreciseWordTimings D script) ∧
      (∀ sg ∈ getPreciseWordTimings D script, sg.s < sg.e) ∧
      (∀ sg ∈ getPreciseWordTimings D script, sg.e ≤ D) := by
  unfold getPreciseWordTimings
  by_cases h : (splitIntoPhrases script).isEmpty
  · rw [if_pos (by simpa using h)]
    have hempty : getFallbackTimings script = [] := by
      unfold getFallbackTimings
      rw [if_pos (by simpa using h)]
    simp [hempty]
  · rw [if_neg (by simpa using h)]
    set durOf := heuristicDur (heuristicWordDur D (splitIntoPhrases script)) with hdurOf
    have hd : ∀ p, 0 < durOf p := by
      intro p
      have := heuristicDur_lb (heuristicWordDur D (splitIntoPhrases script)) p
      rw [hdurOf]
      linarith
    have hg : (0:ℚ) ≤ 1/5 := by norm_num
    set tEnd := finalTimeGo (1/5) durOf (1/10) (splitIntoPhrases script) with htEnd
    have htEnd0 : (1/10 : ℚ) ≤ tEnd :=
      finalTimeGo_mono (1/5) durOf hg hd _ _
    by_cases hscale : D < tEnd
    · rw [if_pos hscale]
      have hk : 0 < (D - 1/5) / tEnd := by
        apply div_pos (by linarith) (by linarith)
      have hkD : tEnd * ((D - 1/5) / tEnd) = D - 1/5 := by
        rw [mul_comm]
        exact div_mul_cancel₀ _ (by linarith)
      refine ⟨?_, ?_, ?_⟩
      · rw [List.pairwise_map]
        refine (layoutGo_sorted _ _ hg hd _ _).imp ?_
        intro a b hab
        show a.s * _ ≤ b.s * _
        exact le_of_lt (mul_lt_mul_of_pos_right hab hk)
      · intro sg hsg
        obtain ⟨x, hx, rfl⟩ := List.mem_map.mp hsg
        have := (layoutGo_mem _ _ hg hd _ _ x hx).2.1
        show x.s * _ < x.e * _
        exact mul_lt_mul_of_pos_right this hk
      · intro sg hsg
        obtain ⟨x, hx, rfl⟩ := List.mem_map.mp hsg
        have hxe := (layoutGo_mem _ _ hg hd _ _ x hx).2.2
        show x.e * ((D - 1/5) / tEnd) ≤ D
        calc x.e * ((D - 1/5) / tEnd)
            ≤ tEnd * ((D - 1/5) / tEnd) :=
              mul_le_mul_of_nonneg_right hxe (le_of_lt hk)
          _ = D - 1/5 := hkD
          _ ≤ D := by linarith
    · rw [if_neg hscale]
      refine ⟨(layoutGo_sorted _ _ hg hd _ _).imp le_of_lt, ?_, ?_⟩
      · intro sg hsg
        exact (layoutGo_mem _ _ hg hd _ _ sg hsg).2.1
      · intro sg hsg
        have := (layoutGo_mem _ _ hg hd _ _ sg hsg).2.2
        push_neg at hscale
        calc sg.e ≤ tEnd := this
          _ ≤ D := hscale

/-! ### Stripping lemmas -/

lemma dropWhile_idem (p : α → Bool) (l : List α) :
    (l.dropWhile p).dropWhile p = l.dropWhile p := by
  cases h : l.dropWhile p with
  | nil => simp
  | cons c t =>
      have hc := List.head?_dropWhile_not p l
      rw [h] at hc
      simp only [List.head?_cons] at hc
      rw [List.dropWhile_cons_of_neg (by simp [hc])]

lemma stripR_prefixOf (l : List Char) : stripR l <+: l := by
  unfold stripR
  have hsuff : l.reverse.dropWhile pyIsSpace <:+ l.reverse :=
    ⟨l.reverse.takeWhile pyIsSpace, List.takeWhile_append_dropWhile _ _⟩
  have := List.reverse_prefix.mpr hsuff
  simpa using this

lemma stripR_idem (l : List Char) : stripR (stripR l) = stripR l := by
  unfold stripR
  rw [List.reverse_reverse, dropWhile_idem]

lemma stripL_of_head_not_space (l : List Char)
    (h : ∀ c ∈ l.head?, pyIsSpace c = false) : stripL l = l := by
  cases l with
  | nil => rfl
  | cons c t =>
      have := h c (by simp)
      unfold stripL
      rw [List.dropWhile_cons_of_neg (by simp [this])]

lemma strip_idem (l : List Char) : strip (strip l) = strip l := by
  unfold strip
  have h1 : stripL (stripR (stripL l)) = stripR (stripL l) := by
    apply stripL_of_head_not_space
    intro c hc
    obtain ⟨t, ht⟩ := stripR_prefixOf (stripL l)
    have hhead : (stripL l).head? = some c := by
      rw [← ht, List.head?_append]
      cases hr : (stripR (stripL l)).head? with
      | none => rw [hr] at hc; simp at hc
      | some d =>
          rw [hr] at hc
          simp only [Option.mem_def, Option.some.injEq] at hc
          subst hc
          simp [hr]
    have := List.head?_dropWhile_not pyIsSpace l
    unfold stripL at hhead
    rw [hhead] at this
    exact this
  rw [h1, stripR_idem]

/-! ### The Strategy A refinement -/

/-- Unfolding of `cleanWords` on a cons cell. -/
lemma cleanWords_cons (wd : WordT) (rest : List WordT) :
    cleanWords (wd :: rest) =
      if (strip wd.w).isEmpty then cleanWords rest
      else ⟨strip wd.w, wd.ws, wd.we⟩ :: cleanWords rest := by
  by_cases h : (strip wd.w).isEmpty <;>
    simp [cleanWords, List.filter_cons, h]

/-- The redundant 10-word cap makes the code's closing condition equal
to the three-clause one. -/
lemma shouldSeg_eq (w : List Char) (c : ℕ) :
    shouldSegCode w c = shouldSegSpec w c := by
  unfold shouldSegCode shouldSegSpec
  rcases Nat.lt_or_ge c 9 with h | h
  · rw [decide_eq_false (by omega : ¬ 10 ≤ c)]
    simp
  · rw [decide_eq_true h]
    simp

/-- The groups partition the clean word stream. -/
lemma groupGoSpec_flatten :
    ∀ (l cur : List WordT), (groupGoSpec cur l).flatten = cur ++ l := by
  intro l
  induction l with
  | nil =>
      intro cur
      by_cases h : cur.isEmpty
      · simp [groupGoSpec, h, List.isEmpty_iff.mp h]
      · simp [groupGoSpec, h]
  | cons wd rest ih =>
      intro cur
      simp only [groupGoSpec]
      by_cases h : shouldSegSpec wd.w (cur ++ [wd]).length
      · rw [if_pos h]
        simp [ih]
      · rw [if_neg h]
        simp [ih]

/-- Every produced group is non-empty. -/
lemma groupGoSpec_ne_nil :
    ∀ (l cur : List WordT), ∀ g ∈ groupGoSpec cur l, g ≠ [] := by
  intro l
  induction l with
  | nil =>
      intro cur g hg
      by_cases h : cur.isEmpty
      · simp [groupGoSpec, h] at hg
      · simp only [groupGoSpec, h, Bool.false_eq_true, if_false,
          List.mem_singleton] at hg
        subst hg
        simpa [List.isEmpty_iff] using h
  | cons wd rest ih =>
      intro cur g hg
      simp only [groupGoSpec] at hg
      by_cases h : shouldSegSpec wd.w (cur ++ [wd]).length
      · rw [if_pos h] at hg
        rcases List.mem_cons.mp hg with rfl | hg
        · simp
        · exact ih [] g hg
      · rw [if_neg h] at hg
        exact ih (cur ++ [wd]) g hg

/-- The accumulation loop of `get_speech_to_text_segments` computes the
spec-described grouping of the clean word stream, segment by segment. -/
lemma stSegGo_eq_group :
    ∀ (rest : List WordT) (g : List WordT),
      (∀ w ∈ g, strip w.w = w.w ∧ w.w ≠ []) →
      stSegGo (g.map (·.w)) ((g.head?).map (·.ws)) ((g.getLast?).map (·.we))
          g.length rest
        = (groupGoSpec g (cleanWords rest)).map mkSeg := by
  intro rest
  induction rest with
  | nil =>
      intro g _
      cases g with
      | nil => simp [stSegGo, groupGoSpec, cleanWords]
      | cons a t => simp [stSegGo, groupGoSpec, cleanWords, mkFlush, mkSeg]
  | cons wd rest ih =>
      intro g hg
      rw [cleanWords_cons]
      by_cases hw : (strip wd.w).isEmpty
      · rw [if_pos hw]
        simp only [stSegGo, hw, if_true]
        exact ih g hg
      · rw [if_neg hw]
        have hclean' : ∀ w ∈ g ++ [(⟨strip wd.w, wd.ws, wd.we⟩ : WordT)],
            strip w.w = w.w ∧ w.w ≠ [] := by
          intro w hwmem
          rcases List.mem_append.mp hwmem with h | h
          · exact hg w h
          · simp only [List.mem_singleton] at h
            subst h
            exact ⟨strip_idem wd.w, by simpa [List.isEmpty_iff] using hw⟩
        have hmap : (g ++ [(⟨strip wd.w, wd.ws, wd.we⟩ : WordT)]).map (·.w)
            = g.map (·.w) ++ [strip wd.w] := by simp
        have hhead : ((g ++ [(⟨strip wd.w, wd.ws, wd.we⟩ : WordT)]).head?).map (·.ws)
            = some (((g.head?).map (·.ws)).getD wd.ws) := by
          cases g <;> simp
        have hlast : ((g ++ [(⟨strip wd.w, wd.ws, wd.we⟩ : WordT)]).getLast?).map (·.we)
            = some wd.we := by
          rw [List.getLast?_concat]
          rfl
        have hlen : (g ++ [(⟨strip wd.w, wd.ws, wd.we⟩ : WordT)]).length
            = g.length + 1 := by simp
        simp only [stSegGo, hw, Bool.false_eq_true, if_false, groupGoSpec]
        rw [← shouldSeg_eq (strip wd.w) (g ++ [(⟨strip wd.w, wd.ws, wd.we⟩ : WordT)]).length,
          hlen]
        by_cases hseg : shouldSegCode (strip wd.w) (g.length + 1)
        · rw [if_pos hseg, if_pos hseg]
          have htail := ih [] (by simp)
          simp only [List.map_nil, List.head?_nil, Option.map_none',
            List.getLast?_nil, List.length_nil] at htail
          rw [htail]
          simp only [List.map_cons]
          congr 1
          unfold mkFlush mkSeg
          rw [hmap, hhead, hlast]
        · rw [if_neg hseg, if_neg hseg]
          have := ih (g ++ [(⟨strip wd.w, wd.ws, wd.we⟩ : WordT)]) hclean'
          rw [hmap, hhead, hlast, hlen] at this
          exact this

/-- Strategy A's raw segmentation equals the spec grouping mapped
through `mkSeg`. -/
lemma strategyARaw_eq (words : List WordT) :
    strategyARaw words = (groupWordsSpec (cleanWords words)).map mkSeg := by
  have := stSegGo_eq_group words [] (by simp)
  simpa [strategyARaw, groupWordsSpec] using this

/-! ### Ordering of Strategy A segments -/

/-- Cleaning preserves the word order relation (times are untouched). -/
lemma cleanWords_pairwise (words : List WordT)
    (hpw : List.Pairwise (fun a b => a.we ≤ b.ws) words) :
    List.Pairwise (fun a b => a.we ≤ b.ws) (cleanWords words) := by
  unfold cleanWords
  rw [List.pairwise_map]
  exact (hpw.sublist (List.filter_sublist _)).imp (fun h => h)

/-- Raw Strategy A segments do not overlap, provided the aligner's
words are ordered with no overlap. -/
lemma strategyARaw_ordered (words : List WordT)
    (hpw : List.Pairwise (fun a b => a.we ≤ b.ws) words) :
    List.Pairwise (fun a b => a.e ≤ b.s) (strategyARaw words) := by
  rw [strategyARaw_eq]
  rw [List.pairwise_map]
  have hflat := groupGoSpec_flatten (cleanWords words) []
  have hcw := cleanWords_pairwise words hpw
  rw [show cleanWords words = (groupGoSpec [] (cleanWords words)).flatten by
    rw [hflat]; rfl] at hcw
  obtain ⟨-, hbetween⟩ := List.pairwise_flatten.mp hcw
  refine hbetween.imp_of_mem ?_
  intro g1 g2 h1 h2 hb
  have hg1 : g1 ≠ [] := groupGoSpec_ne_nil (cleanWords words) [] g1 h1
  have hg2 : g2 ≠ [] := groupGoSpec_ne_nil (cleanWords words) [] g2 h2
  show ((g1.getLast?).map (·.we)).getD 0 ≤ ((g2.head?).map (·.ws)).getD 0
  rw [List.getLast?_eq_getLast g1 hg1, List.head?_eq_head hg2]
  exact hb (g1.getLast hg1) (List.getLast_mem hg1) (g2.head hg2)
    (List.head_mem hg2)

/-- The readability pass preserves the start of the first segment. -/
lemma adjGaps_head_s (a : Seg) (l : List Seg) :
    (adjustReadabilityGaps (a :: l)).head?.map (·.s) = some a.s := by
  cases l with
  | nil => simp [adjustReadabilityGaps]
  | cons b rest => simp [adjustReadabilityGaps]

/-- Inductive core for the readability pass: if the segments are
ordered with no overlap, the head lasts more than 0.1s and every later
segment more than 0.2s, then the output is still ordered and every
output segment is non-degenerate, with the head's start unchanged. -/
lemma adjGaps_go :
    ∀ (rest : List Seg) (a : Seg),
      List.Chain' (fun x y => x.e ≤ y.s) (a :: rest) →
      1/10 < a.e - a.s →
      (∀ sg ∈ rest, 1/5 < sg.e - sg.s) →
      List.Chain' (fun x y => x.e ≤ y.s) (adjustReadabilityGaps (a :: rest)) ∧
        (∀ sg ∈ adjustReadabilityGaps (a :: rest), sg.s < sg.e) := by
  intro rest
  induction rest with
  | nil =>
      intro a _ ha _
      constructor
      · simp [adjustReadabilityGaps]
      · intro sg hsg
        simp only [adjustReadabilityGaps, List.mem_singleton] at hsg
        subst hsg
        linarith
  | cons b rest' ih =>
      intro a hchain ha hdur
      obtain ⟨hab, hchain'⟩ := List.chain'_cons'.mp hchain
      have hab' : a.e ≤ b.s := hab b (by simp)
      have hb : 1/5 < b.e - b.s := hdur b (by simp)
      set g := min (1/10 : ℚ) ((b.s - a.e) / 2) with hgdef
      have hg0 : 0 ≤ g := le_min (by norm_num) (by linarith)
      have hg1 : g ≤ 1/10 := min_le_left _ _
      have hb' : 1/10 < b.e - (b.s + g) := by linarith
      have hchainb : List.Chain' (fun x y => x.e ≤ y.s)
          ((⟨b.word, b.s + g, b.e, b.e - (b.s + g)⟩ : Seg) :: rest') := by
        rw [List.chain'_cons']
        refine ⟨?_, (List.chain'_cons'.mp hchain').2⟩
        intro y hy
        show b.e ≤ y.s
        exact (List.chain'_cons'.mp hchain').1 y hy
      have hdur' : ∀ sg ∈ rest', 1/5 < sg.e - sg.s :=
        fun sg hsg => hdur sg (by simp [hsg])
      obtain ⟨ihchain, ihmem⟩ :=
        ih (⟨b.word, b.s + g, b.e, b.e - (b.s + g)⟩ : Seg) hchainb hb' hdur'
      have hunfold : adjustReadabilityGaps (a :: b :: rest') =
          (⟨a.word, a.s, a.e - g, (a.e - g) - a.s⟩ : Seg) ::
            adjustReadabilityGaps
              ((⟨b.word, b.s + g, b.e, b.e - (b.s + g)⟩ : Seg) :: rest') := by
        rw [adjustReadabilityGaps]
      rw [hunfold]
      constructor
      · rw [List.chain'_cons']
        refine ⟨?_, ihchain⟩
        intro y hy
        have hhead := adjGaps_head_s
          (⟨b.word, b.s + g, b.e, b.e - (b.s + g)⟩ : Seg) rest'
        rw [Option.mem_def] at hy
        have : y.s = b.s + g := by
          rw [hy] at hhead
          simpa using hhead
        show a.e - g ≤ y.s
        rw [this]
        linarith
      · intro sg hsg
        rcases List.mem_cons.mp hsg with rfl | hsg
        · show a.s < a.e - g
          linarith
        · exact ihmem sg hsg

/-- The readability pass keeps Strategy A output ordered and
non-degenerate when every raw segment spans more than 0.2s. -/
lemma adjGaps_props (segs : List Seg)
    (hchain : List.Chain' (fun x y => x.e ≤ y.s) segs)
    (hdur : ∀ sg ∈ segs, 1/5 < sg.e - sg.s) :
    List.Chain' (fun x y => x.e ≤ y.s) (adjustReadabilityGaps segs) ∧
      (∀ sg ∈ adjustReadabilityGaps segs, sg.s < sg.e) := by
  cases segs with
  | nil => simp [adjustReadabilityGaps]
  | cons a rest =>
      exact adjGaps_go rest a hchain
        (by have := hdur a (by simp); linarith)
        (fun sg hsg => hdur sg (by simp [hsg]))

/-- From adjacent non-overlap and non-degeneracy to global pairwise
non-overlap. -/
lemma chain_pairwise_es :
    ∀ (l : List Seg), List.Chain' (fun a b => a.e ≤ b.s) l →
      (∀ sg ∈ l, sg.s < sg.e) →
      List.Pairwise (fun a b => a.e ≤ b.s) l := by
  intro l
  induction l with
  | nil => intro _ _; simp
  | cons a l ih =>
      intro hchain hpos
      obtain ⟨hhead, htail⟩ := List.chain'_cons'.mp hchain
      have hp := ih htail (fun sg hsg => hpos sg (by simp [hsg]))
      rw [List.pairwise_cons]
      refine ⟨?_, hp⟩
      cases l with
      | nil => simp
      | cons c l' =>
          intro b hb
          have hac : a.e ≤ c.s := hhead c (by simp)
          rcases List.mem_cons.mp hb with rfl | hb'
          · exact hac
          · have hcpos : c.s < c.e := hpos c (by simp)
            have hcb : c.e ≤ b.s := (List.pairwise_cons.mp hp).1 b hb'
            linarith

/-- Ordered non-degenerate segments have pairwise increasing starts. -/
lemma chain_to_pairwise_s (l : List Seg)
    (hchain : List.Chain' (fun a b => a.e ≤ b.s) l)
    (hpos : ∀ sg ∈ l, sg.s < sg.e) :
    List.Pairwise (fun a b => a.s < b.s) l :=
  (chain_pairwise_es l hchain hpos).imp_of_mem
    (fun {a b} ha _ hab => by
      have := hpos a ha
      linarith)

/-! ### Phrase segmentation lemmas -/

lemma punct_not_space {c : Char} (h : isPunct c = true) :
    pyIsSpace c = false := by
  simp only [isPunct, Bool.or_eq_true, decide_eq_true_eq] at h
  rcases h with ((((rfl | rfl) | rfl) | rfl) | rfl) | rfl <;> rfl

lemma splitKeepGo_flatten :
    ∀ (cs cur : List Char), (splitKeepGo cur cs).flatten = cur.reverse ++ cs := by
  intro cs
  induction cs with
  | nil => intro cur; simp [splitKeepGo]
  | cons c rest ih =>
      intro cur
      by_cases h : isPunct c
      · simp [splitKeepGo, h, ih]
      · simp only [splitKeepGo, h, Bool.false_eq_true, if_false]
        rw [ih (c :: cur)]
        simp

lemma splitKeepGo_items :
    ∀ (cs cur : List Char), (∀ c ∈ cur, isPunct c = false) →
      ∀ item ∈ splitKeepGo cur cs,
        (∀ c ∈ item, isPunct c = false) ∨
          ∃ p, item = [p] ∧ isPunct p = true := by
  intro cs
  induction cs with
  | nil =>
      intro cur hcur item hitem
      simp only [splitKeepGo, List.mem_singleton] at hitem
      subst hitem
      exact Or.inl (fun c hc => hcur c (List.mem_reverse.mp hc))
  | cons c rest ih =>
      intro cur hcur item hitem
      by_cases h : isPunct c
      · simp only [splitKeepGo, h, if_true, List.mem_cons] at hitem
        rcases hitem with rfl | rfl | hitem
        · exact Or.inl (fun d hd => hcur d (List.mem_reverse.mp hd))
        · exact Or.inr ⟨c, rfl, h⟩
        · exact ih [] (by simp) item hitem
      · simp only [splitKeepGo, h, Bool.false_eq_true, if_false] at hitem
        refine ih (c :: cur) ?_ item hitem
        intro d hd
        rcases List.mem_cons.mp hd with rfl | hd
        · simpa using h
        · exact hcur d hd

lemma splitWSGo_flatten :
    ∀ (cs cur : List Char),
      (splitWSGo cur cs).flatten = cur.reverse ++ nonSpace cs := by
  intro cs
  induction cs with
  | nil =>
      intro cur
      by_cases h : cur.isEmpty
      · simp [splitWSGo, h, List.isEmpty_iff.mp h, nonSpace]
      · simp [splitWSGo, h, nonSpace]
  | cons c rest ih =>
      intro cur
      by_cases h : pyIsSpace c
      · by_cases hc : cur.isEmpty
        · simp only [splitWSGo, h, if_true, hc]
          rw [ih []]
          simp [List.isEmpty_iff.mp hc, nonSpace, List.filter_cons, h]
        · simp only [splitWSGo, h, if_true, hc, Bool.false_eq_true, if_false]
          simp only [List.flatten_cons]
          rw [ih []]
          simp [nonSpace, List.filter_cons, h]
      · simp only [splitWSGo, h, Bool.false_eq_true, if_false]
        rw [ih (c :: cur)]
        simp [nonSpace, List.filter_cons, h]

lemma splitWSGo_words :
    ∀ (cs cur : List Char), (∀ c ∈ cur, pyIsSpace c = false) →
      ∀ w ∈ splitWSGo cur cs, w ≠ [] ∧ ∀ c ∈ w, pyIsSpace c = false := by
  intro cs
  induction cs with
  | nil =>
      intro cur hcur w hw
      by_cases h : cur.isEmpty
      · simp [splitWSGo, h] at hw
      · simp only [splitWSGo, h, Bool.false_eq_true, if_false,
          List.mem_singleton] at hw
        subst hw
        refine ⟨by simpa [List.isEmpty_iff] using h, ?_⟩
        intro c hc
        exact hcur c (List.mem_reverse.mp hc)
  | cons c rest ih =>
      intro cur hcur w hw
      by_cases h : pyIsSpace c
      · by_cases hc : cur.isEmpty
        · simp only [splitWSGo, h, if_true, hc] at hw
          exact ih [] (by simp) w hw
        · simp only [splitWSGo, h, if_true, hc, Bool.false_eq_true, if_false,
            List.mem_cons] at hw
          rcases hw with rfl | hw
          · refine ⟨by simpa [List.isEmpty_iff] using hc, ?_⟩
            intro d hd
            exact hcur d (List.mem_reverse.mp hd)
          · exact ih [] (by simp) w hw
      · simp only [splitWSGo, h, Bool.false_eq_true, if_false] at hw
        refine ih (c :: cur) ?_ w hw
        intro d hd
        rcases List.mem_cons.mp hd with rfl | hd
        · simpa using h
        · exact hcur d hd

lemma joinSp_ne_nil :
    ∀ (W : List (List Char)), (∀ w ∈ W, w ≠ []) → W ≠ [] →
      joinSp W ≠ [] := by
  intro W hW hne
  cases W with
  | nil => exact absurd rfl hne
  | cons w ws =>
      cases ws with
      | nil => simpa [joinSp] using hW w (by simp)
      | cons w₂ ws' =>
          simp only [joinSp]
          intro hcontra
          exact hW w (by simp) (List.append_eq_nil.mp hcontra).1

lemma joinSp_mem :
    ∀ (W : List (List Char)) (c : Char), c ∈ joinSp W →
      c = ' ' ∨ ∃ w ∈ W, c ∈ w := by
  intro W
  induction W with
  | nil => intro c hc; simp [joinSp] at hc
  | cons w ws ih =>
      intro c hc
      cases ws with
      | nil =>
          simp only [joinSp] at hc
          exact Or.inr ⟨w, by simp, hc⟩
      | cons w₂ ws' =>
          simp only [joinSp, List.mem_append, List.mem_cons] at hc
          rcases hc with hc | rfl | hc
          · exact Or.inr ⟨w, by simp, hc⟩
          · exact Or.inl rfl
          · rcases ih c hc with h | ⟨w', hw', hc'⟩
            · exact Or.inl h
            · exact Or.inr ⟨w', by simp [hw'], hc'⟩

lemma nonSpace_joinSp :
    ∀ (W : List (List Char)), (∀ w ∈ W, ∀ c ∈ w, pyIsSpace c = false) →
      nonSpace (joinSp W) = W.flatten := by
  intro W
  induction W with
  | nil => intro _; simp [joinSp, nonSpace]
  | cons w ws ih =>
      intro hW
      have hw : nonSpace w = w := by
        rw [nonSpace, List.filter_eq_self]
        intro c hc
        simp [hW w (by simp) c hc]
      cases ws with
      | nil => simpa [joinSp, List.flatten] using hw
      | cons w₂ ws' =>
          simp only [joinSp, List.flatten_cons]
          rw [nonSpace, List.filter_append]
          show nonSpace w ++ nonSpace (' ' :: joinSp (w₂ :: ws')) = _
          rw [hw]
          have : nonSpace (' ' :: joinSp (w₂ :: ws'))
              = nonSpace (joinSp (w₂ :: ws')) := by
            simp [nonSpace, List.filter_cons, pyIsSpace]
          rw [this, ih (fun u hu => hW u (by simp [hu]))]
          simp

lemma nonSpace_normWS (q : List Char) : nonSpace (normWS q) = nonSpace q := by
  unfold normWS
  rw [nonSpace_joinSp (pySplitWS q) (fun w hw c hc =>
    (splitWSGo_words q [] (by simp) w hw).2 c hc)]
  have := splitWSGo_flatten q []
  simpa [pySplitWS] using this

lemma normWS_ne_nil (q : List Char) (h : nonSpace q ≠ []) : normWS q ≠ [] := by
  have hW : (pySplitWS q).flatten = nonSpace q := by
    have := splitWSGo_flatten q []
    simpa [pySplitWS] using this
  have hWne : pySplitWS q ≠ [] := by
    intro hcontra
    rw [hcontra] at hW
    exact h (hW.symm.trans rfl)
  exact joinSp_ne_nil _ (fun w hw => (splitWSGo_words q [] (by simp) w hw).1) hWne

lemma dropWhile_eq_nil_of_all {p : α → Bool} :
    ∀ {l : List α}, (∀ a ∈ l, p a = true) → l.dropWhile p = [] := by
  intro l
  induction l with
  | nil => intro _; rfl
  | cons a l ih =>
      intro h
      rw [List.dropWhile_cons_of_pos (h a (by simp))]
      exact ih (fun b hb => h b (by simp [hb]))

lemma nonSpace_dropWhile (l : List Char) :
    nonSpace (l.dropWhile pyIsSpace) = nonSpace l := by
  induction l with
  | nil => rfl
  | cons c rest ih =>
      by_cases h : pyIsSpace c
      · rw [List.dropWhile_cons_of_pos h]
        rw [ih]
        simp [nonSpace, List.filter_cons, h]
      · rw [List.dropWhile_cons_of_neg h]

lemma nonSpace_reverse (l : List Char) :
    nonSpace l.reverse = (nonSpace l).reverse := by
  simp [nonSpace]

lemma nonSpace_strip (q : List Char) : nonSpace (strip q) = nonSpace q := by
  unfold strip stripR stripL
  rw [nonSpace_reverse, nonSpace_dropWhile, nonSpace_reverse,
    List.reverse_reverse, nonSpace_dropWhile]

lemma strip_eq_nil_iff (q : List Char) : strip q = [] ↔ nonSpace q = [] := by
  constructor
  · intro h
    rw [← nonSpace_strip q, h]
    rfl
  · intro h
    have hall : ∀ c ∈ q, pyIsSpace c = true := by
      intro c hc
      have := List.filter_eq_nil_iff.mp h c hc
      simpa using this
    unfold strip stripL stripR
    rw [dropWhile_eq_nil_of_all hall]
    rfl

lemma strip_sublist (q : List Char) : List.Sublist (strip q) q := by
  unfold strip
  exact List.Sublist.trans (stripR_prefixOf (stripL q)).sublist
    (List.dropWhile_sublist _)

lemma strip_append_punct (u : List Char) (p : Char) (hp : isPunct p = true) :
    strip (u ++ [p]) = stripL u ++ [p] := by
  have hpns : pyIsSpace p = false := punct_not_space hp
  have hdp : List.dropWhile pyIsSpace [p] = [p] :=
    List.dropWhile_cons_of_neg (by simp [hpns])
  have h1 : stripL (u ++ [p]) = stripL u ++ [p] := by
    unfold stripL
    rw [List.dropWhile_append]
    by_cases h : (u.dropWhile pyIsSpace).isEmpty
    · rw [if_pos h, List.isEmpty_iff.mp h, List.nil_append, hdp]
    · rw [if_neg h]
  unfold strip
  rw [h1]
  unfold stripR
  rw [List.reverse_append, List.reverse_singleton, List.singleton_append]
  have h2 : List.dropWhile pyIsSpace (p :: (stripL u).reverse)
      = p :: (stripL u).reverse :=
    List.dropWhile_cons_of_neg (by simp [hpns])
  rw [h2]
  simp

lemma phrasePunctOk_of_all (q : List Char)
    (h : ∀ c ∈ q, isPunct c = false) : phrasePunctOk q = true := by
  unfold phrasePunctOk
  rw [List.all_eq_true]
  intro c hc
  have := h c ((List.dropLast_sublist q).mem hc)
  simp [this]

lemma phrasePunctOk_append_singleton (u : List Char) (p : Char)
    (h : ∀ c ∈ u, isPunct c = false) :
    phrasePunctOk (u ++ [p]) = true := by
  unfold phrasePunctOk
  rw [List.dropLast_concat, List.all_eq_true]
  intro c hc
  simp [h c hc]

lemma append_singleton_surgery (w x u' : List Char) (p : Char)
    (heq : w ++ x = u' ++ [p]) (hx : x ≠ []) :
    ∃ u₂, u' = w ++ u₂ ∧ x = u₂ ++ [p] := by
  have hw1 : w <+: u' ++ [p] := ⟨x, heq⟩
  have hw2 : u' <+: u' ++ [p] := ⟨[p], rfl⟩
  have hlen : w.length ≤ u'.length := by
    have := congrArg List.length heq
    simp only [List.length_append, List.length_singleton] at this
    have hx' : 1 ≤ x.length := by
      cases x with
      | nil => exact absurd rfl hx
      | cons _ _ => simp
    omega
  obtain ⟨u₂, rfl⟩ := List.prefix_of_prefix_length_le hw1 hw2 hlen
  refine ⟨u₂, rfl, ?_⟩
  rw [List.append_assoc] at heq
  exact List.append_cancel_left heq

lemma joinSp_last_decomp :
    ∀ (W : List (List Char)) (u' : List Char) (p : Char),
      (∀ w ∈ W, w ≠ []) → W.flatten = u' ++ [p] →
      (∀ c ∈ u', isPunct c = false) → isPunct p = true →
      phrasePunctOk (joinSp W) = true := by
  intro W
  induction W with
  | nil =>
      intro u' p _ hflat _ _
      simp only [List.flatten_nil] at hflat
      exact absurd hflat.symm (by simp)
  | cons w W' ih =>
      intro u' p hne hflat hu hp
      cases W' with
      | nil =>
          simp only [List.flatten_cons, List.flatten_nil,
            List.append_nil] at hflat
          show phrasePunctOk (joinSp [w]) = true
          simp only [joinSp]
          rw [hflat]
          exact phrasePunctOk_append_singleton u' p hu
      | cons w₂ W'' =>
          simp only [List.flatten_cons] at hflat
          have hfne : w₂ ++ W''.flatten ≠ [] := by
            intro hcontra
            exact hne w₂ (by simp) (List.append_eq_nil.mp hcontra).1
          obtain ⟨u₂, hu', hrest⟩ :=
            append_singleton_surgery w (w₂ ++ W''.flatten) u' p hflat hfne
          have hwpf : ∀ c ∈ w, isPunct c = false := by
            intro c hc
            exact hu c (by rw [hu']; exact List.mem_append_left _ hc)
          have hu₂pf : ∀ c ∈ u₂, isPunct c = false := by
            intro c hc
            exact hu c (by rw [hu']; exact List.mem_append_right _ hc)
          have hih := ih u₂ p (fun v hv => hne v (by simp [hv]))
            (by simpa using hrest) hu₂pf hp
          have hJne : joinSp (w₂ :: W'') ≠ [] :=
            joinSp_ne_nil _ (fun v hv => hne v (by simp [hv])) (by simp)
          show phrasePunctOk (w ++ ' ' :: joinSp (w₂ :: W'')) = true
          unfold phrasePunctOk
          rw [List.dropLast_append_of_ne_nil _ (by simp), List.all_append]
          have hwall : w.all (fun c => !isPunct c) = true := by
            rw [List.all_eq_true]
            intro c hc
            simp [hwpf c hc]
          rw [hwall]
          cases hJ : joinSp (w₂ :: W'') with
          | nil => exact absurd hJ hJne
          | cons d ds =>
              simp only [List.dropLast_cons₂, List.all_cons]
              have h1 : (!isPunct ' ') = true := by decide
              rw [h1, Bool.true_and]
              have h2 := hih
              unfold phrasePunctOk at h2
              rw [hJ] at h2
              exact h2

lemma nonSpace_append (a b : List Char) :
    nonSpace (a ++ b) = nonSpace a ++ nonSpace b := by
  simp [nonSpace]

lemma pySplitWS_flatten (q : List Char) :
    (pySplitWS q).flatten = nonSpace q := by
  have := splitWSGo_flatten q []
  simpa [pySplitWS] using this

lemma phrasePunctOk_normWS_punct (u : List Char) (p : Char)
    (hu : ∀ c ∈ u, isPunct c = false) (hp : isPunct p = true) :
    phrasePunctOk (normWS (u ++ [p])) = true := by
  unfold normWS
  apply joinSp_last_decomp (pySplitWS (u ++ [p])) (nonSpace u) p
  · exact fun w hw => (splitWSGo_words (u ++ [p]) [] (by simp) w hw).1
  · rw [pySplitWS_flatten, nonSpace_append]
    congr 1
    simp [nonSpace, List.filter_cons, punct_not_space hp]
  · intro c hc
    exact hu c (List.Sublist.mem hc (List.filter_sublist u))
  · exact hp

lemma phrasePunctOk_normWS_all (q : List Char)
    (h : ∀ c ∈ q, isPunct c = false) :
    phrasePunctOk (normWS q) = true := by
  apply phrasePunctOk_of_all
  intro c hc
  unfold normWS at hc
  rcases joinSp_mem (pySplitWS q) c hc with rfl | ⟨w, hw, hcw⟩
  · decide
  · have hcf : c ∈ (pySplitWS q).flatten := List.mem_flatten_of_mem hw hcw
    rw [pySplitWS_flatten] at hcf
    exact h c (List.Sublist.mem hcf (List.filter_sublist q))

lemma phraseLoopGo_nonSpace :
    ∀ (items : List (List Char)) (cur : List Char),
      nonSpace ((phraseLoopGo cur items).flatten)
        = nonSpace cur ++ nonSpace items.flatten := by
  intro items
  induction items with
  | nil =>
      intro cur
      by_cases h : cur.isEmpty
      · simp [phraseLoopGo, h, List.isEmpty_iff.mp h, nonSpace]
      · simp only [phraseLoopGo, h, Bool.false_eq_true, if_false,
          List.flatten_cons, List.flatten_nil, List.append_nil,
          List.flatten]
        rw [nonSpace_strip]
        simp [nonSpace]
  | cons item rest ih =>
      intro cur
      by_cases hskip : (strip item).isEmpty
      · have hitem : nonSpace item = [] :=
          (strip_eq_nil_iff item).mp (List.isEmpty_iff.mp hskip)
        simp only [phraseLoopGo, hskip, if_true, List.flatten_cons]
        rw [ih cur, nonSpace_append, hitem]
        simp
      · by_cases hph : isPunctHead item
        · simp only [phraseLoopGo, hskip, Bool.false_eq_true, if_false,
            hph, if_true, List.flatten_cons]
          rw [nonSpace_append, nonSpace_strip, nonSpace_append, ih []]
          simp only [show nonSpace [] = [] from rfl, List.nil_append,
            List.append_assoc, nonSpace_append]
        · by_cases hce : cur.isEmpty
          · simp only [phraseLoopGo, hskip, Bool.false_eq_true, if_false,
              hph, hce, if_true, List.flatten_cons]
            rw [ih item, List.isEmpty_iff.mp hce]
            simp only [show nonSpace [] = [] from rfl, List.nil_append,
              nonSpace_append]
          · simp only [phraseLoopGo, hskip, Bool.false_eq_true, if_false,
              hph, hce, List.flatten_cons]
            rw [nonSpace_append, nonSpace_strip, ih item]
            simp [nonSpace_append, List.append_assoc]

lemma phraseLoopGo_shape :
    ∀ (items : List (List Char)) (cur : List Char),
      (∀ c ∈ cur, isPunct c = false) →
      (∀ item ∈ items, (∀ c ∈ item, isPunct c = false) ∨
        ∃ p, item = [p] ∧ isPunct p = true) →
      ∀ q ∈ phraseLoopGo cur items,
        (∀ c ∈ q, isPunct c = false) ∨
          ∃ u p, q = u ++ [p] ∧ (∀ c ∈ u, isPunct c = false) ∧
            isPunct p = true := by
  intro items
  induction items with
  | nil =>
      intro cur hcur _ q hq
      by_cases h : cur.isEmpty
      · simp [phraseLoopGo, h] at hq
      · simp only [phraseLoopGo, h, Bool.false_eq_true, if_false,
          List.mem_singleton] at hq
        subst hq
        exact Or.inl (fun c hc => hcur c (List.Sublist.mem hc (strip_sublist cur)))
  | cons item rest ih =>
      intro cur hcur hitems q hq
      have hitem := hitems item (by simp)
      have hrest : ∀ it ∈ rest, (∀ c ∈ it, isPunct c = false) ∨
          ∃ p, it = [p] ∧ isPunct p = true :=
        fun it hit => hitems it (by simp [hit])
      by_cases hskip : (strip item).isEmpty
      · simp only [phraseLoopGo, hskip, if_true] at hq
        exact ih cur hcur hrest q hq
      · by_cases hph : isPunctHead item
        · have hsingle : ∃ p, item = [p] ∧ isPunct p = true := by
            rcases hitem with hfree | hs
            · cases item with
              | nil => simp [isPunctHead] at hph
              | cons c t =>
                  have hcf := hfree c (by simp)
                  simp only [isPunctHead] at hph
                  rw [hcf] at hph
                  exact absurd hph (by simp)
            · exact hs
          obtain ⟨p, rfl, hp⟩ := hsingle
          simp only [phraseLoopGo, hskip, Bool.false_eq_true, if_false,
            hph, if_true, List.mem_cons] at hq
          rcases hq with rfl | hq
          · rw [strip_append_punct cur p hp]
            exact Or.inr ⟨stripL cur, p, rfl,
              fun c hc => hcur c
                (List.Sublist.mem hc (List.dropWhile_sublist _)), hp⟩
          · exact ih [] (by simp) hrest q hq
        · have hfree : ∀ c ∈ item, isPunct c = false := by
            rcases hitem with hfree | ⟨p, rfl, hp⟩
            · exact hfree
            · simp [isPunctHead, hp] at hph
          by_cases hce : cur.isEmpty
          · simp only [phraseLoopGo, hskip, Bool.false_eq_true, if_false,
              hph, hce, if_true] at hq
            exact ih item hfree hrest q hq
          · simp only [phraseLoopGo, hskip, Bool.false_eq_true, if_false,
              hph, hce, List.mem_cons] at hq
            rcases hq with rfl | hq
            · exact Or.inl (fun c hc =>
                hcur c (List.Sublist.mem hc (strip_sublist cur)))
            · exact ih item hfree hrest q hq

lemma filter_strip_nonSpace_flatten :
    ∀ (L : List (List Char)),
      nonSpace ((L.filter (fun p => !(strip p).isEmpty)).flatten)
        = nonSpace L.flatten := by
  intro L
  induction L with
  | nil => rfl
  | cons q L ih =>
      by_cases h : (strip q).isEmpty
      · have hq : nonSpace q = [] :=
          (strip_eq_nil_iff q).mp (List.isEmpty_iff.mp h)
        simp only [List.filter_cons, h, Bool.not_true, Bool.false_eq_true,
          if_false, List.flatten_cons]
        rw [ih, nonSpace_append, hq, List.nil_append]
      · simp only [List.filter_cons, List.flatten_cons]
        rw [if_pos (by simpa using h)]
        simp only [List.flatten_cons]
        rw [nonSpace_append, nonSpace_append, ih]

lemma map_normWS_nonSpace_flatten :
    ∀ (L : List (List Char)),
      nonSpace ((L.map normWS).flatten) = nonSpace L.flatten := by
  intro L
  induction L with
  | nil => rfl
  | cons q L ih =>
      simp only [List.map_cons, List.flatten_cons]
      rw [nonSpace_append, nonSpace_append, nonSpace_normWS, ih]

/-! ## The Phrase Segmenter claim -/

/-- C5: for every non-empty script, `split_into_phrases` returns
non-empty phrases, each with punctuation marks only in final position,
and the concatenation of the phrases carries exactly the non-whitespace
characters of the input, in order, with none lost or duplicated. -/
theorem C5_phrase_segmentation (cs : List Char) (h : cs ≠ []) :
    (∀ p ∈ splitIntoPhrases cs, p ≠ []) ∧
      (∀ p ∈ splitIntoPhrases cs, phrasePunctOk p = true) ∧
      nonSpace (splitIntoPhrases cs).flatten = nonSpace cs := by
  refine ⟨?_, ?_, ?_⟩
  · intro p hp
    unfold splitIntoPhrases at hp
    obtain ⟨q, hq, rfl⟩ := List.mem_map.mp hp
    have hqf := List.mem_filter.mp hq
    have hns : nonSpace q ≠ [] := by
      intro hcontra
      have hnil := (strip_eq_nil_iff q).mpr hcontra
      have := hqf.2
      rw [hnil] at this
      simp at this
    exact normWS_ne_nil q hns
  · intro p hp
    unfold splitIntoPhrases at hp
    obtain ⟨q, hq, rfl⟩ := List.mem_map.mp hp
    have hqmem := (List.mem_filter.mp hq).1
    have hshape := phraseLoopGo_shape (splitKeep cs) [] (by simp)
      (fun item hit => splitKeepGo_items cs [] (by simp) item hit) q hqmem
    rcases hshape with hfree | ⟨u, p', rfl, hu, hp'⟩
    · exact phrasePunctOk_normWS_all q hfree
    · exact phrasePunctOk_normWS_punct u p' hu hp'
  · unfold splitIntoPhrases
    rw [map_normWS_nonSpace_flatten, filter_strip_nonSpace_flatten,
      phraseLoopGo_nonSpace (splitKeep cs) []]
    have hsk := splitKeepGo_flatten cs []
    simp only [List.reverse_nil, List.nil_append] at hsk
    rw [show splitKeep cs = splitKeepGo [] cs from rfl, hsk]
    simp [show nonSpace [] = [] from rfl]
/-- Witness for C5 on the script `"Hello, world!"`. -/
theorem C5_phrase_segmentation_witness :
    ("Hello, world!".toList ≠ []) ∧
      ((∀ p ∈ splitIntoPhrases ("Hello, world!".toList), p ≠ []) ∧
        (∀ p ∈ splitIntoPhrases ("Hello, world!".toList),
          phrasePunctOk p = true) ∧
        nonSpace (splitIntoPhrases ("Hello, world!".toList)).flatten
          = nonSpace ("Hello, world!".toList)) :=
  ⟨by decide, C5_phrase_segmentation _ (by decide)⟩

/-! ## Claims about the timing resolvers -/

/-- C4, counterexample: on the aligner words `Hi.` (count 1) and
`there`, the code closes a segment right after `Hi.` because it ends a
sentence, although the claimed closing rule (count ≥ 9, count ≥ 7 with
a clause end, or the cap of 10) would keep accumulating: the code
yields two segments where the claimed rule yields one. -/
theorem C4_counterexample :
    strategyARaw [⟨"Hi.".toList, 0, 1⟩, ⟨"there".toList, 2, 3⟩]
      ≠ (groupWordsClaim (cleanWords
          [⟨"Hi.".toList, 0, 1⟩, ⟨"there".toList, 2, 3⟩])).map mkSeg := by
  intro h
  have hlen := congrArg List.length h
  have h2 : (strategyARaw
      [⟨"Hi.".toList, 0, 1⟩, ⟨"there".toList, 2, 3⟩]).length = 2 := by decide
  have h1 : ((groupWordsClaim (cleanWords
      [⟨"Hi.".toList, 0, 1⟩, ⟨"there".toList, 2, 3⟩])).map mkSeg).length = 1 := by
    decide
  rw [h1, h2] at hlen
  exact absurd hlen (by decide)

/-- C4, amended: in Strategy A a segment is closed after consuming a
word exactly when the accumulated count reaches 9, or the word ends a
sentence (`.`/`!`/`?`, at any count), or the count is at least 7 and
the word ends with a clause mark (`,`/`;`/`:`); the 10-word cap in the
code is subsumed by the count ≥ 9 test.  Closing boundaries are word
boundaries: the greedy stage's segments are exactly the groups of the
(stripped, non-empty) word stream under that rule, each group is
non-empty, the groups concatenate back to the word stream, and each
segment's start/end are its first word's start and its last word's end
(the content of `mkSeg`). -/
theorem C4_closing_rule (words : List WordT) :
    strategyARaw words = (groupWordsSpec (cleanWords words)).map mkSeg ∧
      (∀ g ∈ groupWordsSpec (cleanWords words), g ≠ []) ∧
      (groupWordsSpec (cleanWords words)).flatten = cleanWords words ∧
      (∀ (w : List Char) (c : ℕ), shouldSegCode w c = shouldSegSpec w c) := by
  refine ⟨strategyARaw_eq words, ?_, ?_, shouldSeg_eq⟩
  · exact groupGoSpec_ne_nil (cleanWords words) []
  · have := groupGoSpec_flatten (cleanWords words) []
    simpa [groupWordsSpec] using this

/-- C1, counterexample: a valid run of the resolver is audio of
duration 1s whose file cannot be analysed, so the fallback runs on the
script `"Hello. World."`; after the Timing Smoother the last segment
ends at 2.916s, exceeding the 1s audio duration. -/
theorem C1_counterexample :
    lastEnd (adjustTimingGaps
        (getFallbackTimings ("Hello. World.".toList))) = 729/250 ∧
      (1 : ℚ) < lastEnd (adjustTimingGaps
        (getFallbackTimings ("Hello. World.".toList))) := by
  rw [eval_fallback_helloWorld]
  norm_num [adjustTimingGaps, smoothGo, gapStep, finishSeg, lastEnd,
    List.isEmpty]

/-- C1, amended: the fallback's segments are always non-decreasing in
start with `end > start`; the heuristic's are too whenever the audio
duration exceeds the 0.2s scale-back buffer, and then its segments all
end by the audio duration; Strategy A's output (greedy segmentation
plus the readability pass) is non-decreasing with `end > start`
provided the aligner's words are ordered without overlap and every
greedy segment spans more than 0.2s.  The fallback output, however,
is not bounded by the audio duration, even after smoothing
(see the counterexample). -/
theorem C1_resolver_invariants (script : List Char) (D : ℚ)
    (words : List WordT) (hD : 1/5 < D)
    (hpw : List.Pairwise (fun a b => a.we ≤ b.ws) words)
    (hdur : ∀ sg ∈ strategyARaw words, 1/5 < sg.e - sg.s) :
    (List.Pairwise (fun a b => a.s ≤ b.s) (getFallbackTimings script) ∧
        ∀ sg ∈ getFallbackTimings script, sg.s < sg.e) ∧
      (List.Pairwise (fun a b => a.s ≤ b.s) (getPreciseWordTimings D script) ∧
        (∀ sg ∈ getPreciseWordTimings D script, sg.s < sg.e) ∧
        (∀ sg ∈ getPreciseWordTimings D script, sg.e ≤ D)) ∧
      (List.Pairwise (fun a b => a.s ≤ b.s) (getSpeechToTextSegments words) ∧
        ∀ sg ∈ getSpeechToTextSegments words, sg.s < sg.e) := by
  refine ⟨fallback_props script, heuristic_props D script hD, ?_⟩
  have hchain := (strategyARaw_ordered words hpw).chain'
  obtain ⟨hc, hpos⟩ := adjGaps_props (strategyARaw words) hchain hdur
  unfold getSpeechToTextSegments
  exact ⟨(chain_to_pairwise_s _ hc hpos).imp le_of_lt, hpos⟩
/-- Witness for C1: script `"Hello. World."`, audio duration 10s, and
aligner words `Hi.` (0s-1s) and `yo.` (2s-3s). -/
theorem C1_resolver_invariants_witness :
    ((1:ℚ)/5 < 10) ∧
      List.Pairwise (fun a b => a.we ≤ b.ws)
        [(⟨"Hi.".toList, 0, 1⟩ : WordT), ⟨"yo.".toList, 2, 3⟩] ∧
      (∀ sg ∈ strategyARaw [(⟨"Hi.".toList, 0, 1⟩ : WordT), ⟨"yo.".toList, 2, 3⟩],
        1/5 < sg.e - sg.s) ∧
      ((List.Pairwise (fun a b => a.s ≤ b.s)
          (getFallbackTimings ("Hello. World.".toList)) ∧
          ∀ sg ∈ getFallbackTimings ("Hello. World.".toList), sg.s < sg.e) ∧
        (List.Pairwise (fun a b => a.s ≤ b.s)
            (getPreciseWordTimings 10 ("Hello. World.".toList)) ∧
          (∀ sg ∈ getPreciseWordTimings 10 ("Hello. World.".toList),
            sg.s < sg.e) ∧
          (∀ sg ∈ getPreciseWordTimings 10 ("Hello. World.".toList),
            sg.e ≤ 10)) ∧
        (List.Pairwise (fun a b => a.s ≤ b.s)
            (getSpeechToTextSegments
              [(⟨"Hi.".toList, 0, 1⟩ : WordT), ⟨"yo.".toList, 2, 3⟩]) ∧
          ∀ sg ∈ getSpeechToTextSegments
              [(⟨"Hi.".toList, 0, 1⟩ : WordT), ⟨"yo.".toList, 2, 3⟩],
            sg.s < sg.e)) := by
  have h1 : (1:ℚ)/5 < 10 := by norm_num
  have h2 : List.Pairwise (fun a b => a.we ≤ b.ws)
      [(⟨"Hi.".toList, 0, 1⟩ : WordT), ⟨"yo.".toList, 2, 3⟩] := by
    refine List.pairwise_cons.mpr ⟨?_, List.pairwise_singleton _ _⟩
    intro b hb
    simp only [List.mem_singleton] at hb
    subst hb
    norm_num
  have heval : strategyARaw [(⟨"Hi.".toList, 0, 1⟩ : WordT), ⟨"yo.".toList, 2, 3⟩]
      = [⟨"Hi.".toList, 0, 1, 1 - 0⟩, ⟨"yo.".toList, 2, 3, 3 - 2⟩] := rfl
  have h3 : ∀ sg ∈ strategyARaw
      [(⟨"Hi.".toList, 0, 1⟩ : WordT), ⟨"yo.".toList, 2, 3⟩],
      (1:ℚ)/5 < sg.e - sg.s := by
    rw [heval]
    intro sg hsg
    simp only [List.mem_cons, List.not_mem_nil, or_false] at hsg
    rcases hsg with rfl | rfl <;> norm_num
  exact ⟨h1, h2, h3,
    C1_resolver_invariants ("Hello. World.".toList) 10
      [(⟨"Hi.".toList, 0, 1⟩ : WordT), ⟨"yo.".toList, 2, 3⟩] h1 h2 h3⟩

/-! ## Claims about the visual timeline -/

/-- C3, counterexample: with 3 images and total duration 9.0 the code
gives every segment duration 3.0; the claimed durations (4.0, 4.0, 3.0)
do not match, and in particular the first segment is not extended by
the transition constant. -/
theorem C3_counterexample :
    computeDurations 3 9 = [3, 3, 3] ∧
      computeDurations 3 9 ≠ claimDurations 3 9 1 := by
  constructor
  · norm_num [computeDurations, List.replicate]
  · norm_num [computeDurations, claimDurations, List.replicate]

/-- C3, amended: `generate_video` divides the total duration evenly;
every one of the `n` background segments (the last included) has
duration exactly `D / n`, no transition-constant extension is added
anywhere, and the durations sum to the whole duration `D`. -/
theorem C3_equal_durations (n : ℕ) (D : ℚ) (hn : 0 < n) :
    (computeDurations n D).length = n ∧
      (∀ d ∈ computeDurations n D, d = D / (n : ℚ)) ∧
      (computeDurations n D).sum = D := by
  refine ⟨by simp [computeDurations], ?_, ?_⟩
  · intro d hd
    exact (List.eq_of_mem_replicate hd)
  · have hn' : (n : ℚ) ≠ 0 := Nat.cast_ne_zero.mpr hn.ne'
    simp [computeDurations, List.sum_replicate, nsmul_eq_mul]
    field_simp
/-- Witness for C3 at `n = 3`, `D = 9`. -/
theorem C3_equal_durations_witness :
    0 < 3 ∧
      ((computeDurations 3 9).length = 3 ∧
        (∀ d ∈ computeDurations 3 9, d = 9 / ((3 : ℕ) : ℚ)) ∧
        (computeDurations 3 9).sum = 9) :=
  ⟨by decide, C3_equal_durations 3 9 (by decide)⟩

/-- C8: with an empty image list, `generate_video` builds a single
solid-colour background spanning the whole audio duration and raises
no error. -/
theorem C8_empty_images_solid (w h : ℕ) (D : ℚ) :
    buildBackground w h [] D = Except.ok (Background.solid w h D) := rfl

/-- C7: with a non-empty image list, matching durations and exactly one
image failing to load, `_create_background_clips` returns (never
aborts) one clip per image in the original order — the clip of the
failing image being a placeholder with that image's duration, every
other clip built from its image — and exactly one clip is a
placeholder. -/
theorem C7_single_corrupt_image_degrades
    (w h : ℕ) (images : List BgImage) (durations : List ℚ)
    (hne : images ≠ []) (hlen : durations.length = images.length)
    (hone : (images.filter (fun im => !im.loads)).length = 1) :
    ∃ clips, createBackgroundClips w h images durations = Except.ok clips
      ∧ clips.length = images.length
      ∧ (clips.filter isPlaceholderClip).length = 1
      ∧ ∀ i : ℕ, ∀ hi : i < images.length, ∀ hc : i < clips.length,
          ∀ hd : i < durations.length,
          clips.get ⟨i, hc⟩ =
            if (images.get ⟨i, hi⟩).loads then
              Clip.image (images.get ⟨i, hi⟩).path (durations.get ⟨i, hd⟩)
            else Clip.placeholder w h (durations.get ⟨i, hd⟩) := by
  refine ⟨(images.zip durations).map (fun pd =>
      if pd.1.loads then Clip.image pd.1.path pd.2
      else Clip.placeholder w h pd.2), ?_, ?_, ?_, ?_⟩
  · unfold createBackgroundClips
    rw [if_neg (by simpa [List.isEmpty_iff] using hne)]
  · simp [List.length_zip, hlen]
  · rw [← List.countP_eq_length_filter]
    rw [countP_clips_eq w h images durations (le_of_eq hlen.symm)]
    rw [List.countP_eq_length_filter]
    exact hone
  · intro i hi hc hd
    simp [List.get_eq_getElem, List.getElem_map, List.getElem_zip]
/-- Witness for C7: five images, the third corrupt. -/
theorem C7_single_corrupt_image_degrades_witness :
    ([⟨"a", true⟩, ⟨"b", true⟩, ⟨"c", false⟩, ⟨"d", true⟩,
        ⟨"e", true⟩] : List BgImage) ≠ [] ∧
      ([1, 1, 1, 1, 1] : List ℚ).length =
        ([⟨"a", true⟩, ⟨"b", true⟩, ⟨"c", false⟩, ⟨"d", true⟩,
          ⟨"e", true⟩] : List BgImage).length ∧
      (([⟨"a", true⟩, ⟨"b", true⟩, ⟨"c", false⟩, ⟨"d", true⟩,
          ⟨"e", true⟩] : List BgImage).filter (fun im => !im.loads)).length = 1 ∧
      (∃ clips, createBackgroundClips 1080 1920
          [⟨"a", true⟩, ⟨"b", true⟩, ⟨"c", false⟩, ⟨"d", true⟩, ⟨"e", true⟩]
          [1, 1, 1, 1, 1] = Except.ok clips
        ∧ clips.length = 5
        ∧ (clips.filter isPlaceholderClip).length = 1) := by
  refine ⟨by decide, by decide, by decide, ?_⟩
  obtain ⟨clips, h1, h2, h3, -⟩ :=
    C7_single_corrupt_image_degrades 1080 1920
      [⟨"a", true⟩, ⟨"b", true⟩, ⟨"c", false⟩, ⟨"d", true⟩, ⟨"e", true⟩]
      [1, 1, 1, 1, 1] (by decide) (by decide) (by decide)
  exact ⟨clips, h1, h2, h3⟩

/-! ## Claims about overlays and progress -/

/-- C9, counterexample: a whitespace-only text is not empty in Python's
truthiness test, so `create_text_clip` does build an overlay clip for
it rather than returning `None`. -/
theorem C9_counterexample :
    createTextClip [' '] 0 1 false = some ⟨[' '], 0, 1, 3/20⟩ := by
  norm_num [createTextClip, min_def]

/-- C9, amended: `create_text_clip` returns no clip exactly when the
silence flag is set or the text is the empty string; whitespace-only
(non-empty) text still produces an overlay. -/
theorem C9_no_clip_iff_silent_or_empty
    (text : List Char) (st d : ℚ) (sil : Bool) :
    createTextClip text st d sil = none ↔ (sil = true ∨ text = []) := by
  cases sil <;> simp [createTextClip, List.isEmpty_iff]

/-- C6, counterexample: a completed render (two frame ticks out of a
total of 2) delivers `render` events only; in particular no `compose`
event reaching 100 precedes the first `render` event, so the claimed
phase ordering fails. -/
theorem C6_counterexample :
    generateVideoEvents true 2 [⟨"frame", 1⟩, ⟨"frame", 2⟩]
        = [("render", 50), ("render", 100)] ∧
      ¬ phasedProgressClaim
        (generateVideoEvents true 2 [⟨"frame", 1⟩, ⟨"frame", 2⟩]) := by
  constructor
  · norm_num [generateVideoEvents, barLoggerEmits, List.filterMap]
  · decide

/-- C6, amended: every event ever delivered to the progress callback by
`generate_video` has phase `render` (no `compose` or `export` event
exists), and with no callback supplied nothing is emitted — the event
stream is the only behaviour that depends on the callback. -/
theorem C6_only_render_events (cb : Bool) (total : ℕ)
    (updates : List LoggerUpdate) :
    (∀ ev ∈ generateVideoEvents cb total updates, ev.1 = "render") ∧
      generateVideoEvents false total updates = [] := by
  constructor
  · intro ev hev
    unfold generateVideoEvents barLoggerEmits at hev
    cases cb with
    | false => simp at hev
    | true =>
        simp only [if_pos] at hev
        obtain ⟨u, -, hu⟩ := List.mem_filterMap.mp hev
        by_cases hfr : u.param = "frame" && decide (total ≠ 0)
        · rw [if_pos hfr] at hu
          cases hu
          rfl
        · rw [if_neg hfr] at hu
          cases hu
  · rfl

/-- C10: the fallback timing generator is a function of the script text
alone — on the audio-analysis failure path the produced segments are
identical for any two audio durations — and its output is not scaled to
the audio: for the script `"Hello. World."` its total extent is 2.592s,
which exceeds an audio duration of 1s. -/
theorem C10_fallback_deterministic :
    (∀ (d₁ d₂ : ℚ) (script : List Char),
        timingsOnAudioFailure d₁ script = timingsOnAudioFailure d₂ script) ∧
      lastEnd (getFallbackTimings ("Hello. World.".toList)) = 324/125 ∧
      (1 : ℚ) < lastEnd (getFallbackTimings ("Hello. World.".toList)) := by
  refine ⟨fun _ _ _ => rfl, ?_, ?_⟩ <;>
    rw [eval_fallback_helloWorld] <;> norm_num [lastEnd]

end VidGen
